import Mathlib

/-!
# Verification of the `WadAssetReader` archive-catalog adapter

Shallow embedding of `src/crates/gs_files/src/io/wad.rs` (crate `gs_files`):
the directory scan `WadAssetReader::new` and the four `AssetReader` trait
methods `read`, `read_meta`, `read_directory`, `is_directory`.

`OsStr`, `str` and `CStr16` names are byte sequences at this boundary, so
strings are modelled as `List Nat` of byte values ("wad" = `[119, 97, 100]`,
'.' = 46).  `str::to_lowercase` is modelled on its ASCII fragment, which is
all that archive names and extensions exercise.  The external crate
`goldsrc_rs` (`wad_entries`, `wad::Entry`) is not part of this repository's
sources; its pieces are modelled from the spec, marked as such below.
The `HashMap` of entries is modelled as an association list with unique
keys, with `HashMap`-style `insert` (replace in place), `extend`
(insert each pair in order, last wins) and `get`.
-/

set_option linter.unusedVariables false

namespace Hlbsp

/-- `Except` results are compared in theorem statements and witnesses. -/
instance {ε α : Type} [DecidableEq ε] [DecidableEq α] : DecidableEq (Except ε α) :=
  fun a b =>
    match a, b with
    | .ok x, .ok y =>
        if h : x = y then .isTrue (by rw [h]) else .isFalse (by simp [h])
    | .error x, .error y =>
        if h : x = y then .isTrue (by rw [h]) else .isFalse (by simp [h])
    | .ok _, .error _ => .isFalse (by simp)
    | .error _, .ok _ => .isFalse (by simp)

/-- Byte strings: the byte values of an `OsStr`, `str` or `CStr16`. -/
abbrev Str := List Nat

/-- ASCII lowercasing of one byte, as done by `u8::to_ascii_lowercase`. -/
def asciiLower (b : Nat) : Nat :=
  if 65 ≤ b ∧ b ≤ 90 then b + 32 else b

/-- `str::to_lowercase` restricted to the ASCII fragment exercised here. -/
def toLowercase (s : Str) : Str :=
  s.map asciiLower

/-- `OsStr::eq_ignore_ascii_case`: equality after ASCII lowercasing. -/
def eqIgnoreAsciiCase (a b : Str) : Bool :=
  toLowercase a == toLowercase b

/-- The archive extension `"wad"` compared against in `WadAssetReader::new`. -/
def wadExt : Str := [119, 97, 100]

/-- Modelled from the spec: `goldsrc_rs::wad::Entry` (crate `goldsrc_rs`, not
under `src/`), the "archive entry descriptor (offset, length, lump kind)". -/
structure Entry where
  offset : Nat
  length : Nat
  kind : Nat
deriving DecidableEq, Repr

/-- Modelled from the spec: the value of `Entry::reader()` (crate
`goldsrc_rs`, not under `src/`), "a byte-range reader over it": the reader is
determined by the entry whose byte range it exposes. -/
structure ByteRangeReader where
  entry : Entry
deriving DecidableEq, Repr

/-- `Entry::reader()`: build the byte-range reader over this entry. -/
def Entry.reader (e : Entry) : ByteRangeReader := ⟨e⟩

/-- The `HashMap<CStr16, Entry>` is modelled as an association list with
unique keys. -/
abbrev Catalog := List (Str × Entry)

/-- `HashMap::get`: the value at the first (hence, keys being unique, only)
binding of the key. -/
def hmGet (c : Catalog) (k : Str) : Option Entry :=
  match c with
  | [] => none
  | (k', v) :: rest => if k' = k then some v else hmGet rest k

/-- `HashMap::insert`: replace the binding in place if the key is present,
otherwise add a new binding. -/
def hmInsert (c : Catalog) (k : Str) (v : Entry) : Catalog :=
  match c with
  | [] => [(k, v)]
  | (k', v') :: rest =>
      if k' = k then (k, v) :: rest else (k', v') :: hmInsert rest k v

/-- `HashMap::extend`: insert each pair in order; a later pair with the same
key wins. -/
def hmExtend (c : Catalog) (xs : List (Str × Entry)) : Catalog :=
  xs.foldl (fun acc p => hmInsert acc p.1 p.2) c

/-- The keys of a catalog. -/
def hmKeys (c : Catalog) : List Str :=
  c.map Prod.fst

/-- Modelled from the spec: `goldsrc_rs::wad_entries` (crate `goldsrc_rs`,
not under `src/`) with its lowercasing flag set as at the call site, on an
archive whose directory table lists the raw `(name, entry)` pairs `raw`:
"decodes each into a mapping from fixed-width case-insensitive name to an
archive entry descriptor", "keyed by lowercased name".  Collecting the pairs
into a map makes keys unique, a later duplicate winning. -/
def wad_entries (raw : List (Str × Entry)) : List (Str × Entry) :=
  hmExtend [] (raw.map fun p => (toLowercase p.1, p.2))

/-- One file visible in the scanned directory, as `WadAssetReader::new`
observes it: the result of `path.extension()`, and the raw `(name, entry)`
pairs of its directory table when `File::open` plus parsing succeed (a
single `Except` models the `and_then` chain of the two fallible steps). -/
structure FsFile where
  extension : Option Str
  contents : Except Str (List (Str × Entry))
deriving DecidableEq

/-- The scanned directory as `fs::read_dir` yields it: an error, or a list of
per-entry results each of which may itself be an error. -/
abbrev DirListing := Except Str (List (Except Str FsFile))

/-- `WadAssetReader`: the catalog built at construction time. -/
structure WadAssetReader where
  entries : Catalog
deriving DecidableEq

/-- The loop body of `WadAssetReader::new` for one directory entry: an
unreadable entry is skipped; a file without extension is skipped; a file
whose extension is not (case-insensitively) `"wad"` is skipped; a `.wad`
file that fails to open or parse is skipped; a valid `.wad` file has its
parsed entries merged into the accumulated map by `HashMap::extend`. -/
def scanFile (acc : Catalog) (ent : Except Str FsFile) : Catalog :=
  match ent with
  | .error _ => acc
  | .ok file =>
      match file.extension with
      | none => acc
      | some ext =>
          if eqIgnoreAsciiCase ext wadExt then
            match file.contents with
            | .ok raw => hmExtend acc (wad_entries raw)
            | .error _ => acc
          else acc

/-- `WadAssetReader::new`: scan the root directory.  A failed `read_dir`
leaves the map empty; otherwise fold `scanFile` over the directory entries
in iteration order. -/
def WadAssetReader.new (root : DirListing) : WadAssetReader :=
  match root with
  | .error _ => ⟨[]⟩
  | .ok dirEntries => ⟨dirEntries.foldl scanFile []⟩

/-- A file name as an `OsStr`: either valid UTF-8 text (its bytes), or a
non-UTF-8 byte sequence, kept opaque since only its failure to convert via
`OsStr::to_str` matters. -/
inductive OsName where
  | utf8 (s : Str)
  | nonUtf8 (id : Nat)
deriving DecidableEq, Repr

/-- A requested path, as far as `read` inspects it: the final component
(`Path::file_name`), when there is one. -/
structure ReqPath where
  fileName : Option OsName
deriving DecidableEq, Repr

/-- The index of the last `'.'` (byte 46) in a name, if any. -/
def lastDot : Str → Option Nat
  | [] => none
  | b :: rest =>
      match lastDot rest with
      | some i => some (i + 1)
      | none => if b = 46 then some 0 else none

/-- The stem of a file name per `Path::file_stem`: everything before the
last `'.'`, except that a name with no `'.'`, or only a leading one, is its
own stem. -/
def stemOf (s : Str) : Str :=
  match lastDot s with
  | none => s
  | some 0 => s
  | some (i + 1) => s.take (i + 1)

/-- The extension of a file name per `Path::extension`: everything after the
last `'.'`, unless there is none or it is leading. -/
def extOf (s : Str) : Option Str :=
  match lastDot s with
  | none => none
  | some 0 => none
  | some (i + 1) => some (s.drop (i + 2))

/-- `Path::file_stem` on a requested path: `none` without a file name; the
stem of the name's bytes for UTF-8 names; a non-UTF-8 name stays a non-UTF-8
stem. -/
def ReqPath.file_stem (p : ReqPath) : Option OsName :=
  match p.fileName with
  | none => none
  | some (.utf8 s) => some (.utf8 (stemOf s))
  | some (.nonUtf8 n) => some (.nonUtf8 n)

/-- `Path::extension` on a requested path, for stating same-stem
different-extension facts. -/
def ReqPath.extension (p : ReqPath) : Option Str :=
  match p.fileName with
  | none => none
  | some (.utf8 s) => extOf s
  | some (.nonUtf8 _) => none

/-- `OsStr::to_str`: succeeds exactly on valid UTF-8. -/
def OsName.to_str : OsName → Option Str
  | .utf8 s => some s
  | .nonUtf8 _ => none

/-- `io::ErrorKind` values used by the reader. -/
inductive IoErrorKind where
  | InvalidInput
deriving DecidableEq, Repr

/-- `AssetReaderError` as the reader produces it: `NotFound` with the
requested path, or an I/O error with kind and message. -/
inductive AssetReaderError where
  | NotFound (path : ReqPath)
  | Io (kind : IoErrorKind) (msg : String)
deriving DecidableEq, Repr

/-- The name `read` resolves a path to:
`path.file_stem().and_then(OsStr::to_str).map(str::to_lowercase)`. -/
def resolveName (p : ReqPath) : Option Str :=
  (p.file_stem.bind OsName.to_str).map toLowercase

/-- `WadAssetReader::read`: resolve the lowercased file stem (failing with an
`InvalidInput` I/O error when there is no UTF-8 stem), look it up in the
catalog (failing with `NotFound` carrying the requested path), and return
the entry's byte-range reader. -/
def WadAssetReader.read (r : WadAssetReader) (p : ReqPath) :
    Except AssetReaderError ByteRangeReader :=
  match resolveName p with
  | none => .error (.Io .InvalidInput "invalid filename passed")
  | some name =>
      match hmGet r.entries name with
      | none => .error (.NotFound p)
      | some entry => .ok entry.reader

/-- `WadAssetReader::read_meta`: always `NotFound` with the requested path. -/
def WadAssetReader.read_meta (r : WadAssetReader) (p : ReqPath) :
    Except AssetReaderError ByteRangeReader :=
  .error (.NotFound p)

/-- `WadAssetReader::read_directory`: always the empty stream. -/
def WadAssetReader.read_directory (r : WadAssetReader) (p : ReqPath) :
    Except AssetReaderError (List ReqPath) :=
  .ok []

/-- `WadAssetReader::is_directory`: always `false`. -/
def WadAssetReader.is_directory (r : WadAssetReader) (p : ReqPath) :
    Except AssetReaderError Bool :=
  .ok false

/-- The observable outcome of a `read` call: the byte-range reader it
returned, a not-found result, or the invalid-input result.  (The `NotFound`
variant of `AssetReaderError` additionally echoes the requested path; the
outcome abstracts that echo away.) -/
inductive ReadOutcome where
  | found (r : ByteRangeReader)
  | notFound
  | invalidInput
deriving DecidableEq, Repr

/-- Classify a `read` result as a `ReadOutcome`. -/
def outcomeOf : Except AssetReaderError ByteRangeReader → ReadOutcome
  | .ok r => .found r
  | .error (.NotFound _) => .notFound
  | .error (.Io _ _) => .invalidInput

/-- One call against the `AssetReader` trait object. -/
inductive WadOp where
  | opRead (p : ReqPath)
  | opReadMeta (p : ReqPath)
  | opReadDirectory (p : ReqPath)
  | opIsDirectory (p : ReqPath)
deriving DecidableEq

/-- The result of one `AssetReader` call. -/
inductive OpResult where
  | bytes (r : Except AssetReaderError ByteRangeReader)
  | listing (r : Except AssetReaderError (List ReqPath))
  | flag (r : Except AssetReaderError Bool)
deriving DecidableEq

/-- Apply one trait call: every method takes `&self` (and the struct has no
interior mutability), so each call returns its result together with the
receiver it leaves behind. -/
def applyOp (r : WadAssetReader) (op : WadOp) : OpResult × WadAssetReader :=
  match op with
  | .opRead p => (.bytes (r.read p), r)
  | .opReadMeta p => (.bytes (r.read_meta p), r)
  | .opReadDirectory p => (.listing (r.read_directory p), r)
  | .opIsDirectory p => (.flag (r.is_directory p), r)

/-- Thread a sequence of trait calls through the reader. -/
def applyOps (r : WadAssetReader) (ops : List WadOp) : WadAssetReader :=
  ops.foldl (fun acc op => (applyOp acc op).2) r

/-- The directory-scan filter: directory entries that are readable, have an
extension, and whose extension case-insensitively equals `"wad"`. -/
def isWadFile : Except Str FsFile → Bool
  | .error _ => false
  | .ok file =>
      match file.extension with
      | none => false
      | some ext => eqIgnoreAsciiCase ext wadExt

/-! ## Concrete sample data, used by the witnesses -/

/-- A sample mip-texture entry. -/
def entryA : Entry := ⟨0, 16, 67⟩

/-- A second, distinct sample entry. -/
def entryB : Entry := ⟨128, 32, 67⟩

/-- The bytes of `"WALL01"`. -/
def nameWALL01 : Str := [87, 65, 76, 76, 48, 49]

/-- The bytes of `"wall01"`. -/
def nameWall01 : Str := [119, 97, 108, 108, 48, 49]

/-- The bytes of `"WAD"`, an upper-case archive extension. -/
def extWAD : Str := [87, 65, 68]

/-- A valid archive file with extension `"WAD"` listing `WALL01`. -/
def fileGood : FsFile := ⟨some extWAD, .ok [(nameWALL01, entryA)]⟩

/-- A `.wad` file that fails to open or parse. -/
def fileBad : FsFile := ⟨some wadExt, .error [98, 97, 100]⟩

/-- A `.txt` file, carrying entries that must never be merged. -/
def fileText : FsFile := ⟨some [116, 120, 116], .ok [(nameWall01, entryB)]⟩

/-- A second valid archive whose `wall01` entry collides with `fileGood`. -/
def fileGood2 : FsFile := ⟨some wadExt, .ok [(nameWall01, entryB)]⟩

/-- A directory listing with one unreadable entry, one bad archive, one good
archive and one non-archive file. -/
def listingSample : List (Except Str FsFile) :=
  [.error [101], .ok fileBad, .ok fileGood, .ok fileText]

/-- The requested path `"WALL01.bmp"`. -/
def pathWALL01bmp : ReqPath := ⟨some (.utf8 [87, 65, 76, 76, 48, 49, 46, 98, 109, 112])⟩

/-- The requested path `"wall01.tga"`. -/
def pathWall01tga : ReqPath := ⟨some (.utf8 [119, 97, 108, 108, 48, 49, 46, 116, 103, 97])⟩

/-- A reader whose catalog has exactly the `wall01` entry. -/
def readerSample : WadAssetReader := ⟨[(nameWall01, entryA)]⟩

/-! ## Lemmas on the `HashMap` model -/

theorem hmGet_hmInsert (c : Catalog) (k q : Str) (v : Entry) :
    hmGet (hmInsert c k v) q = if k = q then some v else hmGet c q := by
  induction c with
  | nil => simp [hmInsert, hmGet]
  | cons p rest ih =>
      obtain ⟨k0, v0⟩ := p
      by_cases h0 : k0 = k
      · subst h0
        by_cases h1 : k0 = q
        · subst h1
          simp [hmInsert, hmGet]
        · simp [hmInsert, hmGet, h1]
      · by_cases h1 : k0 = q
        · subst h1
          have h2 : ¬k = k0 := fun h => h0 h.symm
          simp [hmInsert, hmGet, h0, h2]
        · simp [hmInsert, hmGet, h0, h1, ih]

@[simp] theorem hmKeys_nil : hmKeys [] = [] := rfl

@[simp] theorem hmKeys_cons (p : Str × Entry) (c : Catalog) :
    hmKeys (p :: c) = p.1 :: hmKeys c := rfl

theorem hmKeys_hmInsert (c : Catalog) (k : Str) (v : Entry) :
    hmKeys (hmInsert c k v) =
      if k ∈ hmKeys c then hmKeys c else hmKeys c ++ [k] := by
  induction c with
  | nil => simp [hmInsert]
  | cons p rest ih =>
      obtain ⟨k0, v0⟩ := p
      by_cases h0 : k0 = k
      · subst h0
        simp [hmInsert]
      · have h1 : ¬k = k0 := fun h => h0 h.symm
        by_cases h2 : k ∈ hmKeys rest
        · simp [hmInsert, h0, h1, h2, ih]
        · simp [hmInsert, h0, h1, h2, ih]

theorem hmKeys_nodup_hmInsert (c : Catalog) (k : Str) (v : Entry)
    (h : (hmKeys c).Nodup) : (hmKeys (hmInsert c k v)).Nodup := by
  rw [hmKeys_hmInsert]
  by_cases hk : k ∈ hmKeys c
  · simpa [hk] using h
  · simp [hk, List.nodup_append, h]

theorem hmLength_hmInsert (c : Catalog) (k : Str) (v : Entry) :
    (hmInsert c k v).length ≤ c.length + 1 := by
  induction c with
  | nil => simp [hmInsert]
  | cons p rest ih =>
      obtain ⟨k0, v0⟩ := p
      by_cases h0 : k0 = k
      · simp [hmInsert, h0]
      · simp [hmInsert, h0]
        omega

theorem hmExtend_cons (c : Catalog) (p : Str × Entry) (xs : List (Str × Entry)) :
    hmExtend c (p :: xs) = hmExtend (hmInsert c p.1 p.2) xs := rfl

theorem hmLength_hmExtend (c : Catalog) (xs : List (Str × Entry)) :
    (hmExtend c xs).length ≤ c.length + xs.length := by
  induction xs generalizing c with
  | nil => simp [hmExtend]
  | cons p xs ih =>
      have h1 := hmLength_hmInsert c p.1 p.2
      have h2 := ih (hmInsert c p.1 p.2)
      rw [hmExtend_cons]
      simp only [List.length_cons]
      omega

theorem hmGet_hmExtend_not_mem (c : Catalog) (xs : List (Str × Entry)) (q : Str)
    (h : q ∉ hmKeys xs) : hmGet (hmExtend c xs) q = hmGet c q := by
  induction xs generalizing c with
  | nil => rfl
  | cons p xs ih =>
      simp only [hmKeys_cons, List.mem_cons, not_or] at h
      obtain ⟨h1, h2⟩ := h
      rw [hmExtend_cons, ih _ h2, hmGet_hmInsert, if_neg (fun hh => h1 hh.symm)]

theorem hmGet_hmExtend_last (c : Catalog) (xs : List (Str × Entry)) (q : Str) (v : Entry)
    (hnd : (hmKeys xs).Nodup) (hm : (q, v) ∈ xs) :
    hmGet (hmExtend c xs) q = some v := by
  induction xs generalizing c with
  | nil => cases hm
  | cons p xs ih =>
      simp only [hmKeys_cons, List.nodup_cons] at hnd
      rcases List.mem_cons.mp hm with h | h
      · have hp : p = (q, v) := h.symm
        subst hp
        rw [hmExtend_cons, hmGet_hmExtend_not_mem _ _ _ hnd.1, hmGet_hmInsert, if_pos rfl]
      · rw [hmExtend_cons]
        exact ih (hmInsert c p.1 p.2) hnd.2 h

theorem hmGet_isSome_hmInsert (c : Catalog) (k q : Str) (v : Entry)
    (h : (hmGet c q).isSome) : (hmGet (hmInsert c k v) q).isSome := by
  rw [hmGet_hmInsert]
  by_cases hk : k = q
  · simp [hk]
  · simpa [hk] using h

theorem hmGet_isSome_hmExtend (c : Catalog) (xs : List (Str × Entry)) (q : Str)
    (h : (hmGet c q).isSome) : (hmGet (hmExtend c xs) q).isSome := by
  induction xs generalizing c with
  | nil => exact h
  | cons p xs ih =>
      rw [hmExtend_cons]
      exact ih _ (hmGet_isSome_hmInsert _ _ _ _ h)

theorem hmKeys_hmExtend_subset (c : Catalog) (xs : List (Str × Entry)) (q : Str)
    (h : q ∈ hmKeys (hmExtend c xs)) : q ∈ hmKeys c ∨ q ∈ hmKeys xs := by
  induction xs generalizing c with
  | nil => exact Or.inl h
  | cons p xs ih =>
      rw [hmExtend_cons] at h
      rcases ih _ h with h | h
      · rw [hmKeys_hmInsert] at h
        by_cases hk : p.1 ∈ hmKeys c
        · rw [if_pos hk] at h
          exact Or.inl h
        · rw [if_neg hk] at h
          rcases List.mem_append.mp h with h | h
          · exact Or.inl h
          · simp only [List.mem_singleton] at h
            subst h
            exact Or.inr (by simp)
      · exact Or.inr (by simp [h])

theorem hmKeys_nodup_hmExtend (c : Catalog) (xs : List (Str × Entry))
    (h : (hmKeys c).Nodup) : (hmKeys (hmExtend c xs)).Nodup := by
  induction xs generalizing c with
  | nil => exact h
  | cons p xs ih =>
      rw [hmExtend_cons]
      exact ih _ (hmKeys_nodup_hmInsert _ _ _ h)

/-! ## Lemmas on lowercasing, `wad_entries` and the directory scan -/

theorem asciiLower_idem (b : Nat) : asciiLower (asciiLower b) = asciiLower b := by
  by_cases h : 65 ≤ b ∧ b ≤ 90
  · have h32 : ¬(65 ≤ b + 32 ∧ b + 32 ≤ 90) := by omega
    simp only [asciiLower, if_pos h]
    rw [if_neg h32]
  · simp [asciiLower, h]

theorem toLowercase_idem (s : Str) : toLowercase (toLowercase s) = toLowercase s := by
  induction s with
  | nil => rfl
  | cons b t ih =>
      simp only [toLowercase, List.map_cons, List.map_map] at ih ⊢
      rw [asciiLower_idem]
      exact congrArg _ (by simpa [toLowercase] using ih)

theorem wad_entries_keys_nodup (raw : List (Str × Entry)) :
    (hmKeys (wad_entries raw)).Nodup :=
  hmKeys_nodup_hmExtend [] _ (by simp)

theorem wad_entries_keys_lower (raw : List (Str × Entry)) (q : Str)
    (h : q ∈ hmKeys (wad_entries raw)) : toLowercase q = q := by
  rcases hmKeys_hmExtend_subset [] _ q h with h | h
  · cases h
  · simp only [hmKeys, List.map_map] at h
    rcases List.mem_map.mp h with ⟨p, _, hp⟩
    rw [← hp]
    exact toLowercase_idem p.1

theorem hmGet_isSome_scanFile (acc : Catalog) (ent : Except Str FsFile) (q : Str)
    (h : (hmGet acc q).isSome) : (hmGet (scanFile acc ent) q).isSome := by
  cases ent with
  | error e => exact h
  | ok file =>
      cases hext : file.extension with
      | none => simpa [scanFile, hext] using h
      | some ext =>
          by_cases hw : eqIgnoreAsciiCase ext wadExt
          · cases hcon : file.contents with
            | error e => simpa [scanFile, hext, hw, hcon] using h
            | ok raw =>
                simp only [scanFile, hext, hw, hcon, if_true]
                exact hmGet_isSome_hmExtend _ _ _ h
          · simpa [scanFile, hext, hw] using h

theorem hmGet_isSome_foldl_scanFile (l : List (Except Str FsFile)) (acc : Catalog)
    (q : Str) (h : (hmGet acc q).isSome) :
    (hmGet (l.foldl scanFile acc) q).isSome := by
  induction l generalizing acc with
  | nil => exact h
  | cons ent l ih => exact ih _ (hmGet_isSome_scanFile _ _ _ h)

/-- The invariant claimed of every catalog the scan can build: all keys are
lowercase and no key occurs twice. -/
def catalogInv (c : Catalog) : Prop :=
  (∀ q ∈ hmKeys c, toLowercase q = q) ∧ (hmKeys c).Nodup

theorem catalogInv_scanFile (acc : Catalog) (ent : Except Str FsFile)
    (h : catalogInv acc) : catalogInv (scanFile acc ent) := by
  cases ent with
  | error e => exact h
  | ok file =>
      cases hext : file.extension with
      | none => simpa [scanFile, hext] using h
      | some ext =>
          by_cases hw : eqIgnoreAsciiCase ext wadExt
          · cases hcon : file.contents with
            | error e => simpa [scanFile, hext, hw, hcon] using h
            | ok raw =>
                simp only [scanFile, hext, hw, hcon, if_true]
                constructor
                · intro q hq
                  rcases hmKeys_hmExtend_subset acc _ q hq with hq | hq
                  · exact h.1 q hq
                  · exact wad_entries_keys_lower raw q hq
                · exact hmKeys_nodup_hmExtend _ _ h.2
          · simpa [scanFile, hext, hw] using h

theorem catalogInv_foldl_scanFile (l : List (Except Str FsFile)) (acc : Catalog)
    (h : catalogInv acc) : catalogInv (l.foldl scanFile acc) := by
  induction l generalizing acc with
  | nil => exact h
  | cons ent l ih => exact ih _ (catalogInv_scanFile _ _ h)

theorem scanFile_not_wad (acc : Catalog) (ent : Except Str FsFile)
    (h : isWadFile ent = false) : scanFile acc ent = acc := by
  cases ent with
  | error e => rfl
  | ok f =>
      cases hext : f.extension with
      | none => simp [scanFile, hext]
      | some ext =>
          have hw : eqIgnoreAsciiCase ext wadExt = false := by
            simpa [isWadFile, hext] using h
          simp [scanFile, hext, hw]

theorem foldl_scanFile_filter (dl : List (Except Str FsFile)) (acc : Catalog) :
    dl.foldl scanFile acc = (dl.filter isWadFile).foldl scanFile acc := by
  induction dl generalizing acc with
  | nil => rfl
  | cons ent dl ih =>
      by_cases h : isWadFile ent
      · rw [List.foldl_cons, List.filter_cons, if_pos h, List.foldl_cons]
        exact ih _
      · have h0 : isWadFile ent = false := by simpa using h
        rw [List.foldl_cons, List.filter_cons, if_neg (by simp [h0]),
          scanFile_not_wad acc ent h0]
        exact ih _

theorem applyOp_receiver (r : WadAssetReader) (op : WadOp) : (applyOp r op).2 = r := by
  cases op <;> rfl

theorem applyOps_receiver (r : WadAssetReader) (ops : List WadOp) :
    applyOps r ops = r := by
  induction ops generalizing r with
  | nil => rfl
  | cons op ops ih =>
      show applyOps (applyOp r op).2 ops = r
      rw [applyOp_receiver]
      exact ih r

/-! ## The claims -/

/-- C1: For every directory scanned by `WadAssetReader::new`, a failure to
read one directory entry or a failure to open or parse one `.wad` file does
not abort the scan: whatever errors the listing contains, every entry name
parsed from any valid archive file of the directory is still present in the
resulting catalog. -/
theorem scan_failure_isolation
    (dl : List (Except Str FsFile)) (f : FsFile) (ext : Str)
    (raw : List (Str × Entry)) (k : Str) (v : Entry)
    (hf : Except.ok f ∈ dl)
    (hext : f.extension = some ext)
    (hwad : eqIgnoreAsciiCase ext wadExt = true)
    (hraw : f.contents = .ok raw)
    (hk : (k, v) ∈ wad_entries raw) :
    (hmGet (WadAssetReader.new (.ok dl)).entries k).isSome := by
  obtain ⟨l1, l2, rfl⟩ := List.append_of_mem hf
  show (hmGet ((l1 ++ Except.ok f :: l2).foldl scanFile []) k).isSome
  rw [List.foldl_append, List.foldl_cons]
  apply hmGet_isSome_foldl_scanFile
  have hscan : scanFile (l1.foldl scanFile []) (Except.ok f)
      = hmExtend (l1.foldl scanFile []) (wad_entries raw) := by
    simp [scanFile, hext, hwad, hraw]
  rw [hscan, hmGet_hmExtend_last _ _ k v (wad_entries_keys_nodup raw) hk]
  rfl

/-- C1 witness: in a listing with one unreadable entry and one unparsable
archive, the valid archive's `wall01` entry is still catalogued. -/
theorem scan_failure_isolation_witness :
    (hmGet (WadAssetReader.new (.ok listingSample)).entries nameWall01).isSome :=
  scan_failure_isolation listingSample fileGood extWAD [(nameWALL01, entryA)]
    nameWall01 entryA (by decide) (by decide) (by decide) (by decide) (by decide)

/-- C2: For every requested path whose lowercased stem resolves to `name`,
`read` returns the byte-range reader of the catalogued entry when `name` is
present, returns `NotFound` when it is absent, and no other outcome occurs. -/
theorem read_lookup_dichotomy (r : WadAssetReader) (p : ReqPath) (name : Str)
    (hname : resolveName p = some name) :
    (∀ v, hmGet r.entries name = some v → r.read p = .ok v.reader) ∧
    (hmGet r.entries name = none → r.read p = .error (.NotFound p)) ∧
    ((∃ v, hmGet r.entries name = some v ∧ r.read p = .ok v.reader) ∨
      (hmGet r.entries name = none ∧ r.read p = .error (.NotFound p))) := by
  refine ⟨?_, ?_, ?_⟩
  · intro v hv
    simp [WadAssetReader.read, hname, hv]
  · intro hv
    simp [WadAssetReader.read, hname, hv]
  · cases hv : hmGet r.entries name with
    | none => exact Or.inr ⟨rfl, by simp [WadAssetReader.read, hname, hv]⟩
    | some v => exact Or.inl ⟨v, rfl, by simp [WadAssetReader.read, hname, hv]⟩

/-- C2 witness: `"wall01.tga"` resolves against a catalog holding `wall01`
and yields that entry's byte-range reader. -/
theorem read_lookup_dichotomy_witness :
    readerSample.read pathWall01tga = .ok entryA.reader :=
  (read_lookup_dichotomy readerSample pathWall01tga nameWall01 (by decide)).1
    entryA (by decide)

/-- C3: every key of the catalog built by `WadAssetReader::new` is lowercase,
and the keys are unique. -/
theorem catalog_keys_lowercase_unique (root : DirListing) :
    (∀ q ∈ hmKeys (WadAssetReader.new root).entries, toLowercase q = q) ∧
    (hmKeys (WadAssetReader.new root).entries).Nodup := by
  cases root with
  | error e => exact ⟨by simp [WadAssetReader.new], by simp [WadAssetReader.new]⟩
  | ok dl =>
      exact catalogInv_foldl_scanFile dl [] ⟨by simp, by simp⟩

/-- C3 witness: the key catalogued from the upper-case `WALL01` archive name
is its own lowercasing. -/
theorem catalog_keys_lowercase_unique_witness :
    toLowercase nameWall01 = nameWall01 :=
  (catalog_keys_lowercase_unique (.ok listingSample)).1 nameWall01 (by decide)

/-- C4: scanning two valid archives in a fixed order merges them last-wins:
every entry of the second archive is the one found in the catalog, and the
merged catalog is no larger than the two archives' entry counts combined. -/
theorem extend_last_wins_and_size
    (f1 f2 : FsFile) (ext1 ext2 : Str) (raw1 raw2 : List (Str × Entry))
    (hx1 : f1.extension = some ext1) (hw1 : eqIgnoreAsciiCase ext1 wadExt = true)
    (hc1 : f1.contents = .ok raw1)
    (hx2 : f2.extension = some ext2) (hw2 : eqIgnoreAsciiCase ext2 wadExt = true)
    (hc2 : f2.contents = .ok raw2) :
    (∀ k v, (k, v) ∈ wad_entries raw2 →
      hmGet (WadAssetReader.new (.ok [.ok f1, .ok f2])).entries k = some v) ∧
    (WadAssetReader.new (.ok [.ok f1, .ok f2])).entries.length ≤
      (wad_entries raw1).length + (wad_entries raw2).length := by
  have hcat : (WadAssetReader.new (.ok [.ok f1, .ok f2])).entries
      = hmExtend (hmExtend [] (wad_entries raw1)) (wad_entries raw2) := by
    show ([Except.ok f1, Except.ok f2].foldl scanFile []) = _
    rw [List.foldl_cons, List.foldl_cons, List.foldl_nil]
    simp [scanFile, hx1, hw1, hc1, hx2, hw2, hc2]
  constructor
  · intro k v hm
    rw [hcat]
    exact hmGet_hmExtend_last _ _ k v (wad_entries_keys_nodup raw2) hm
  · rw [hcat]
    have e1 := hmLength_hmExtend [] (wad_entries raw1)
    have e2 := hmLength_hmExtend (hmExtend [] (wad_entries raw1)) (wad_entries raw2)
    simp only [List.length_nil, Nat.zero_add] at e1
    omega

/-- C4 witness: `wall01` collides between the two archives and the second
archive's entry wins; the merged size is within the bound. -/
theorem extend_last_wins_and_size_witness :
    hmGet (WadAssetReader.new (.ok [.ok fileGood, .ok fileGood2])).entries
      nameWall01 = some entryB :=
  (extend_last_wins_and_size fileGood fileGood2 extWAD wadExt
      [(nameWALL01, entryA)] [(nameWall01, entryB)]
      (by decide) (by decide) (by decide) (by decide) (by decide) (by decide)).1
    nameWall01 entryB (by decide)

/-- C5: the scan merges exactly the directory entries whose extension
case-insensitively equals `"wad"`: dropping every other entry (including
files with no extension) from the listing leaves the result unchanged. -/
theorem scan_filters_wad_extension (dl : List (Except Str FsFile)) :
    WadAssetReader.new (.ok dl) = WadAssetReader.new (.ok (dl.filter isWadFile)) := by
  show WadAssetReader.mk (dl.foldl scanFile [])
      = WadAssetReader.mk ((dl.filter isWadFile).foldl scanFile [])
  rw [foldl_scanFile_filter]

/-- C6: an unreadable root directory yields an empty catalog, with no error
propagated. -/
theorem unreadable_dir_empty_catalog (err : Str) :
    (WadAssetReader.new (.error err)).entries = [] := rfl

/-- C7: `read` resolves a path by its lowercased final-component file stem
only: two paths with the same lowercased UTF-8 stem — in particular stems
differing only in ASCII case, or equal stems under different extensions —
yield the same read outcome. -/
theorem read_resolves_by_lowercased_stem (r : WadAssetReader) (p1 p2 : ReqPath)
    (s1 s2 : Str)
    (h1 : p1.file_stem.bind OsName.to_str = some s1)
    (h2 : p2.file_stem.bind OsName.to_str = some s2)
    (hls : toLowercase s1 = toLowercase s2) :
    outcomeOf (r.read p1) = outcomeOf (r.read p2) := by
  have r1 : resolveName p1 = some (toLowercase s1) := by simp [resolveName, h1]
  have r2 : resolveName p2 = some (toLowercase s2) := by simp [resolveName, h2]
  simp only [WadAssetReader.read, r1, r2, hls]
  cases hmGet r.entries (toLowercase s2) <;> simp [outcomeOf]

/-- C7 witness: `"WALL01.bmp"` and `"wall01.tga"` — different ASCII case and
different extensions — read to the same outcome. -/
theorem read_resolves_by_lowercased_stem_witness :
    outcomeOf (readerSample.read pathWALL01bmp)
      = outcomeOf (readerSample.read pathWall01tga) :=
  read_resolves_by_lowercased_stem readerSample pathWALL01bmp pathWall01tga
    nameWALL01 nameWall01 (by decide) (by decide) (by decide)

/-- C8: for every path, `read_meta` is `NotFound`, `read_directory` is the
empty listing, and `is_directory` is `false`. -/
theorem meta_dir_flat_namespace (r : WadAssetReader) (p : ReqPath) :
    r.read_meta p = .error (.NotFound p) ∧
    r.read_directory p = .ok [] ∧
    r.is_directory p = .ok false :=
  ⟨rfl, rfl, rfl⟩

/-- C9: no sequence of `AssetReader` operations changes the entries mapping:
the catalog seen after any operations equals the one built at construction. -/
theorem operations_preserve_entries (root : DirListing) (ops : List WadOp) :
    (applyOps (WadAssetReader.new root) ops).entries
      = (WadAssetReader.new root).entries := by
  rw [applyOps_receiver]

/-- C10: a path with no file stem, or a non-UTF-8 one, reads to the defined
invalid-input I/O error, independently of the catalog, and that error is
distinct from every `NotFound` result. -/
theorem invalid_stem_invalid_input (r : WadAssetReader) (p : ReqPath)
    (h : p.file_stem.bind OsName.to_str = none) :
    r.read p = .error (.Io .InvalidInput "invalid filename passed") ∧
    (∀ r2 : WadAssetReader, r2.read p = r.read p) ∧
    (∀ q, AssetReaderError.Io .InvalidInput "invalid filename passed"
        ≠ .NotFound q) := by
  have hr : resolveName p = none := by simp [resolveName, h]
  refine ⟨by simp [WadAssetReader.read, hr], fun r2 => by simp [WadAssetReader.read, hr],
    fun q hq => AssetReaderError.noConfusion hq⟩

/-- C10 witness: a path whose final component is not valid UTF-8 reads to the
invalid-input error even against an empty catalog. -/
theorem invalid_stem_invalid_input_witness :
    (WadAssetReader.mk []).read ⟨some (.nonUtf8 0)⟩
      = .error (.Io .InvalidInput "invalid filename passed") :=
  (invalid_stem_invalid_input ⟨[]⟩ ⟨some (.nonUtf8 0)⟩ (by decide)).1

end Hlbsp
